import Mathlib

/-!
# Verification of the change-set tree model of the IntelliJ-IDEA-style Git extension

This file is a shallow embedding, in Lean 4, of the core subsystem of the
repository: the `ChangeRecord` parsing contract of `gitService.ts`
(`getDirectoryDiff`), the change-set tree builder and provider of
`changesTreeProvider.ts` (`ChangeTreeItem`, `ChangesTreeProvider`), and the
surrounding state machine (`setCompareContext` / `clear` / `refresh` /
`getChildren` / `getParent`).

External collaborators (the `git` binary invoked through `execFileAsync`, and
Node's `path` module) are modeled as oracles or as small total functions, each
marked in its doc comment.  JavaScript strings are modeled as Lean `String`,
JavaScript string splitting (`split('/')`, `split('\t')`, `split('\n')`) as a
character-level splitter, and the locale-aware comparator
`String.prototype.localeCompare` as codepoint-lexicographic comparison.
TypeScript `undefined`-able fields are modeled with `Option`; `try`/`catch`
around the external process call is modeled with `Except`.  The in-place
mutation of tree nodes (the `folderMap` keyed by cumulative path, and
`addChild` pushes) is realized functionally: each folder node is created at
most once per cumulative path and attached under its parent path, so the map
lookup coincides with walking folder children by segment name.
-/

/-! ## Character-level string utilities (models of JavaScript string methods) -/

/-- Splits a character list at every occurrence of `sep`.  Models
JavaScript `String.prototype.split` with a single-character separator:
`split` of the empty string yields `[""]`, and trailing separators yield
trailing empty pieces. -/
def splitOnChar (sep : Char) : List Char → List (List Char)
  | [] => [[]]
  | c :: rest =>
    match splitOnChar sep rest with
    | [] => [[]]
    | piece :: pieces =>
      if c = sep then [] :: piece :: pieces else (c :: piece) :: pieces

/-- Joins pieces with the separator character: left inverse of `splitOnChar`. -/
def joinChar (sep : Char) : List (List Char) → List Char
  | [] => []
  | [piece] => piece
  | piece :: rest => piece ++ sep :: joinChar sep rest

/-- `splitStr sep s` splits the string `s` at every occurrence of the
character `sep`, as JavaScript `s.split(sep)` does. -/
def splitStr (sep : Char) (s : String) : List String :=
  (splitOnChar sep s.data).map (fun cs => String.mk cs)

/-- Splits a slash-separated path into its segments; models
`file.path.split('/')` from `buildTreeStructure`. -/
def splitPath (p : String) : List String :=
  splitStr '/' p

/-- Models JavaScript `s.charAt(0)`: the one-character string holding the
first character, or the empty string when `s` is empty. -/
def charAt0 (s : String) : String :=
  match s.data with
  | [] => ""
  | c :: _ => String.mk [c]

/-- ASCII whitespace test used by the model of `String.prototype.trim`. -/
def isWsChar (c : Char) : Bool :=
  c == ' ' || c == '\t' || c == '\n' || c == '\x0d'

/-- Models JavaScript `String.prototype.trim`: strips leading and trailing
whitespace. -/
def trimStr (s : String) : String :=
  String.mk (((s.data.dropWhile isWsChar).reverse.dropWhile isWsChar).reverse)

/-- Codepoint-lexicographic order on character lists, as a boolean
`le` relation (`a` compares less-or-equal to `b`). -/
def cmpLeChars : List Char → List Char → Bool
  | [], _ => true
  | _ :: _, [] => false
  | a :: as, b :: bs =>
    if a.toNat = b.toNat then cmpLeChars as bs
    else decide (a.toNat < b.toNat)

/-- Models `a.localeCompare(b) <= 0`, the comparator used by
`buildTreeStructure` to sort records by path: codepoint-lexicographic
comparison (locale-specific collation differences are outside the model;
on the slash-separated ASCII paths of interest the orders agree). -/
def localeCompareLe (a b : String) : Bool :=
  cmpLeChars a.data b.data

/-- Boolean prefix test on character lists (helper for `pathRelative`). -/
def listStartsWith : List Char → List Char → Bool
  | [], _ => true
  | _ :: _, [] => false
  | a :: as, b :: bs => a == b && listStartsWith as bs

/-- Models Node's `path.relative(base, target)` for the configurations the
provider uses it in — `base` equal to `target`, or `base` a proper ancestor
directory of `target` (the repository root against a path inside it). -/
def pathRelative (base target : String) : String :=
  if base == target then ""
  else if listStartsWith (base.data ++ ['/']) target.data then
    String.mk (target.data.drop (base.data.length + 1))
  else target

/-- Joins path segments with `'/'` (helper for `pathDirname`). -/
def joinSegs (segs : List String) : String :=
  String.mk (joinChar '/' (segs.map String.data))

/-- Models Node's `path.dirname` for slash-separated paths: everything before
the final segment, or `"."` when there is no directory component. -/
def pathDirname (p : String) : String :=
  match (splitPath p).dropLast with
  | [] => "."
  | segs => joinSegs segs

/-- Models JavaScript string replacement of every backslash by a slash,
`s.replace(/\\/g, '/')`, used to normalize Windows separators. -/
def backslashToSlash (s : String) : String :=
  String.mk (s.data.map (fun c => if c == '\\' then '/' else c))

/-! ## ChangeRecord model and the `git diff --name-status` parser
(`gitService.ts`, `getDirectoryDiff`) -/

/-- `DiffFileInfo` from `gitService.ts`: one file's change status (the git
status letter, e.g. `"A"`, `"M"`, `"D"`, `"R"`, `"C"`, `"U"`), its
slash-separated path relative to the repository root, and — for renamed or
copied files — the old path.  The optional TypeScript field `oldPath?` is
modeled with `Option`. -/
structure DiffFileInfo where
  status : String
  path : String
  oldPath : Option String := none
deriving Repr, DecidableEq

/-- Parses one line of `git diff --name-status` output, as
`getDirectoryDiff` does: fields are tab-separated, the status is the first
character of the first field, and for `R`/`C` lines the second field is the
old path and the third the new path.  The source maps every line to a record
and then drops records whose `path` is falsy (`undefined` from a missing
field, or empty); here the map and that filter are fused, so `none` is
returned exactly for the lines the source filters out. -/
def parseLine (line : String) : Option DiffFileInfo :=
  let parts := splitStr '\t' line
  let status := charAt0 (parts.headD "")
  if status == "R" || status == "C" then
    match parts.get? 2 with
    | some p => if p == "" then none else some { status := status, path := p, oldPath := parts.get? 1 }
    | none => none
  else
    match parts.get? 1 with
    | some p => if p == "" then none else some { status := status, path := p, oldPath := none }
    | none => none

/-- The parsing phase of `getDirectoryDiff`: trim the output, split into
lines, parse each line, drop invalid entries. -/
def parseNameStatus (stdout : String) : List DiffFileInfo :=
  (splitStr '\n' (trimStr stdout)).filterMap parseLine

/-- `getDirectoryDiff` from `gitService.ts`, with the external
`execFileAsync('git', ['diff', '--name-status', ...])` call modeled by its
outcome `execResult` (`Except.error` for a rejected promise).  The source's
`try`/`catch` turns any failure into an empty record list, and an output that
trims to the empty string also yields the empty list. -/
def getDirectoryDiff (execResult : Except String String) : List DiffFileInfo :=
  match execResult with
  | Except.error _ => []
  | Except.ok stdout => if trimStr stdout == "" then [] else parseNameStatus stdout

/-! ## The change-set tree (`changesTreeProvider.ts`) -/

/-- `CompareContext` from `changesTreeProvider.ts`. -/
structure CompareContext where
  basePath : String
  ref : String
  refLabel : String
  repoRoot : String
  isDirectory : Bool
deriving Repr, DecidableEq

/-- `ChangeTreeItem` from `changesTreeProvider.ts`: a file or folder node of
the Changes view.  Modeled fields: `label`, `isFolder`, `fileInfo` (present
iff the node is a changed file), `fullPath` (the cumulative repository-relative
path), and the ordered `children` list.  Host-presentation fields
(`collapsibleState`, icons, tooltip, the stored `repoRoot`/`ref`, the click
command) are rendering metadata and are omitted; the mutable `parent`
back-reference and the `description` text are recovered by the functions
`getParent` and `folderDescription` below. -/
inductive ChangeTreeItem : Type where
  | mk (label : String) (isFolder : Bool) (fileInfo : Option DiffFileInfo)
       (fullPath : String) (children : List ChangeTreeItem)
deriving Repr

def ChangeTreeItem.label : ChangeTreeItem → String
  | .mk l _ _ _ _ => l

def ChangeTreeItem.isFolder : ChangeTreeItem → Bool
  | .mk _ f _ _ _ => f

def ChangeTreeItem.fileInfo : ChangeTreeItem → Option DiffFileInfo
  | .mk _ _ i _ _ => i

def ChangeTreeItem.fullPath : ChangeTreeItem → String
  | .mk _ _ _ p _ => p

def ChangeTreeItem.children : ChangeTreeItem → List ChangeTreeItem
  | .mk _ _ _ _ cs => cs

/-- Replaces the children list of a node (the functional counterpart of
pushing into a node's mutable `children` array). -/
def setChildren : ChangeTreeItem → List ChangeTreeItem → ChangeTreeItem
  | .mk l f i p _, cs => .mk l f i p cs

mutual
/-- `ChangeTreeItem.countFiles`: the number of file nodes anywhere below a
node — direct file children count one each, folder children contribute their
own recursive count. -/
def countFiles : ChangeTreeItem → Nat
  | .mk _ _ _ _ cs => countFilesList cs
def countFilesList : List ChangeTreeItem → Nat
  | [] => 0
  | c :: cs => (if c.isFolder then countFiles c else 1) + countFilesList cs
end

/-- `ChangeTreeItem.updateDescription`: the description text rendered on a
folder node, `` `${count} file${count !== 1 ? 's' : ''}` `` computed from
`countFiles`.  In the source the text is stored in the mutable `description`
field and recomputed by `updateAllFolderDescriptions` after every build; in
this functional model it is derived on demand, which coincides with the
source state after a build. -/
def folderDescription (t : ChangeTreeItem) : String :=
  toString (countFiles t) ++ " file" ++ (if countFiles t == 1 then "" else "s")

mutual
/-- All nodes of a subtree (the node itself and everything below it), and
the same for a forest.  Specification-side helper used to state what an
aggregate file count must equal. -/
def subtreeNodes : ChangeTreeItem → List ChangeTreeItem
  | .mk l f i p cs => .mk l f i p cs :: subtreeNodesList cs
def subtreeNodesList : List ChangeTreeItem → List ChangeTreeItem
  | [] => []
  | c :: cs => subtreeNodes c ++ subtreeNodesList cs
end

mutual
/-- All file-type leaves of a forest, in depth-first order. -/
def allFilesList : List ChangeTreeItem → List ChangeTreeItem
  | [] => []
  | c :: cs => allFilesItem c ++ allFilesList cs
def allFilesItem : ChangeTreeItem → List ChangeTreeItem
  | .mk l f i p cs => if f then allFilesList cs else [.mk l f i p cs]
end

/-- The predicate `buildTreeStructure` looks folders up by: is this child a
folder node carrying the given segment name? -/
def isFolderNamed (d : String) (c : ChangeTreeItem) : Bool :=
  c.isFolder && c.label == d

/-- Replaces the first folder child named `d` by `newItem`, leaving every
other sibling in place: the functional counterpart of mutating, through the
`folderMap`, the one folder node registered for the current cumulative path. -/
def replaceFirstFolder (d : String) (newItem : ChangeTreeItem) : List ChangeTreeItem → List ChangeTreeItem
  | [] => []
  | c :: cs =>
    if isFolderNamed d c then newItem :: cs
    else c :: replaceFirstFolder d newItem cs

/-- The per-record walk of `buildTreeStructure`: descend through the
intermediate directory segments `dirs`, creating each missing folder node
(registered under its cumulative path `cur`) and appending it at the end of
its parent's children, then append the file node `leaf` to the deepest
directory reached (or to the root list when `dirs` is empty).

In the source the existing folder for a cumulative path is found in the
build-local `folderMap`; since every folder node is created exactly once and
attached under its parent's cumulative path, that lookup is realized here by
locating the folder child with the segment's name. -/
def insertSegs (leaf : ChangeTreeItem) : String → List String → List ChangeTreeItem → List ChangeTreeItem
  | _, [], forest => forest ++ [leaf]
  | cur, d :: ds, forest =>
    let curPath := if cur == "" then d else cur ++ "/" ++ d
    match forest.find? (isFolderNamed d) with
    | none =>
        forest ++ [ChangeTreeItem.mk d true none curPath (insertSegs leaf curPath ds [])]
    | some c =>
        replaceFirstFolder d (setChildren c (insertSegs leaf curPath ds (c.children))) forest

/-- The file node `buildTreeStructure` creates for a record: labeled with the
final path segment, carrying the record as payload, with no children. -/
def fileLeafOf (file : DiffFileInfo) : ChangeTreeItem :=
  ChangeTreeItem.mk ((splitPath file.path).getLastD "") false (some file) file.path []

/-- Processing of one sorted record inside `buildTreeStructure`: split the
path into segments, all but the last being intermediate directories, and
insert the file node at that position. -/
def insertRecord (roots : List ChangeTreeItem) (file : DiffFileInfo) : List ChangeTreeItem :=
  insertSegs (fileLeafOf file) "" ((splitPath file.path).dropLast) roots

/-- Inserts `a` into an already-processed list, after every element whose
path compares less-or-equal: the step of a stable sort. -/
def insertSorted (a : DiffFileInfo) : List DiffFileInfo → List DiffFileInfo
  | [] => [a]
  | b :: bs =>
    if localeCompareLe b.path a.path then b :: insertSorted a bs
    else a :: b :: bs

/-- Models `[...files].sort((a, b) => a.path.localeCompare(b.path))`:
JavaScript's `Array.prototype.sort` is a stable sort, and a stable sort is
uniquely determined by its comparator, so any stable implementation is
extensionally the source function; this one is insertion sort processing the
input left to right. -/
def sortByPath (files : List DiffFileInfo) : List DiffFileInfo :=
  files.foldl (fun acc f => insertSorted f acc) []

/-- `ChangesTreeProvider.buildTreeStructure`: rebuilds the root item list
from the held context and record list.  With no context or no records the
root list is empty; otherwise the records are sorted by path and inserted
one by one.  (`updateAllFolderDescriptions`, which the source runs at the
end, recomputes the derived `description` texts and does not change the
structure; in this model descriptions are derived by `folderDescription`.) -/
def buildTreeStructure (compareContext : Option CompareContext) (changedFiles : List DiffFileInfo) : List ChangeTreeItem :=
  match compareContext with
  | none => []
  | some _ =>
    if changedFiles.length = 0 then []
    else (sortByPath changedFiles).foldl insertRecord []

/-! ## The provider state machine (`ChangesTreeProvider`) -/

/-- The mutable state of the `ChangesTreeProvider` singleton: the held
comparison context, the fetched record list, and the built root items. -/
structure ProviderState where
  compareContext : Option CompareContext
  changedFiles : List DiffFileInfo
  rootItems : List ChangeTreeItem

/-- The provider's state after construction: no context, no records, no
tree. -/
def ProviderState.initial : ProviderState :=
  { compareContext := none, changedFiles := [], rootItems := [] }

namespace ChangesTreeProvider

/-- `ChangesTreeProvider.setCompareContext`: store the context, fetch the
records — the whole directory's diff in directory mode; in single-file mode
the containing directory's diff, selecting the record matching the file's
repository-relative path and falling back to a synthetic `"M"` record — then
rebuild the tree.  The external `git diff` invocation is modeled by the
oracle `git`, mapping `(dirPath, ref, repoRoot)` to the outcome of the
process call. -/
def setCompareContext (git : String → String → String → Except String String)
    (context : CompareContext) (_s : ProviderState) : ProviderState :=
  let changedFiles :=
    if context.isDirectory then
      getDirectoryDiff (git context.basePath context.ref context.repoRoot)
    else
      let relativePath := backslashToSlash (pathRelative context.repoRoot context.basePath)
      let allDiffs := getDirectoryDiff (git (pathDirname context.basePath) context.ref context.repoRoot)
      let matchedFile := allDiffs.find? (fun f => f.path == relativePath)
      [matchedFile.getD { status := "M", path := relativePath, oldPath := none }]
  { compareContext := some context
    changedFiles := changedFiles
    rootItems := buildTreeStructure (some context) changedFiles }

/-- `ChangesTreeProvider.clear`: discard context, records and tree. -/
def clear (_s : ProviderState) : ProviderState :=
  { compareContext := none, changedFiles := [], rootItems := [] }

/-- `ChangesTreeProvider.refresh`: re-run `setCompareContext` with the held
context; a no-op when no context is held. -/
def refresh (git : String → String → String → Except String String)
    (s : ProviderState) : ProviderState :=
  match s.compareContext with
  | none => s
  | some context => setCompareContext git context s

/-- `ChangesTreeProvider.getChildren`, as a state transformer returning the
result together with the (unchanged) state: the empty list when no context is
held, the root items when called with no element, and the element's children
otherwise. -/
def getChildren (s : ProviderState) (element : Option ChangeTreeItem) :
    List ChangeTreeItem × ProviderState :=
  match s.compareContext with
  | none => ([], s)
  | some _ =>
    match element with
    | none => (s.rootItems, s)
    | some e => (e.children, s)

mutual
/-- Structural node equality, used to locate a node inside the held tree. -/
def itemBEq : ChangeTreeItem → ChangeTreeItem → Bool
  | .mk l f i p cs, .mk l2 f2 i2 p2 cs2 =>
    l == l2 && f == f2 && i == i2 && p == p2 && itemListBEq cs cs2
def itemListBEq : List ChangeTreeItem → List ChangeTreeItem → Bool
  | [], [] => true
  | c :: cs, c2 :: cs2 => itemBEq c c2 && itemListBEq cs cs2
  | _, _ => false
end

mutual
/-- The parent of a node within a forest: the nearest ancestor whose
children contain it, or `none` for a root.  In the source every node stores
a mutable `parent` back-reference assigned by `addChild`; in this functional
model the back-reference is recovered by searching the held tree. -/
def parentOfNode : ChangeTreeItem → ChangeTreeItem → Option ChangeTreeItem
  | .mk l f i p cs, e =>
    if cs.any (fun c => itemBEq c e) then some (.mk l f i p cs)
    else parentOfList cs e
def parentOfList : List ChangeTreeItem → ChangeTreeItem → Option ChangeTreeItem
  | [], _ => none
  | n :: ns, e =>
    match parentOfNode n e with
    | some pn => some pn
    | none => parentOfList ns e
end

/-- `ChangesTreeProvider.getParent`, as a state transformer returning the
element's parent back-reference together with the (unchanged) state. -/
def getParent (s : ProviderState) (element : ChangeTreeItem) :
    Option ChangeTreeItem × ProviderState :=
  (parentOfList s.rootItems element, s)

end ChangesTreeProvider

/-! ## Specification-side definitions

These express, over the embedded tree, the properties the specification
states: reaching a file leaf by walking a path's slash-separated segments,
sibling-name uniqueness, and well-formedness invariants of built trees. -/

/-- The file leaves reached from `forest` by walking the segment list: each
intermediate segment must match a directory child, the final segment a
file-type child.  When sibling folders shared a name, every matching branch
would be followed, so the definition presupposes no uniqueness. -/
def filesAt : List ChangeTreeItem → List String → List ChangeTreeItem
  | _, [] => []
  | forest, [s] => forest.filter (fun c => !c.isFolder && c.label == s)
  | forest, s :: b :: rest =>
    ((forest.filter (isFolderNamed s)).map (fun c => filesAt c.children (b :: rest))).flatten

/-- The labels of the folder-type entries of a sibling list. -/
def folderLabels (cs : List ChangeTreeItem) : List String :=
  (cs.filter (fun c => c.isFolder)).map ChangeTreeItem.label

/-- Well-formedness invariant of built forests: at every level — the root
list and the children of every node — no two folder siblings share a label. -/
inductive WFForest : List ChangeTreeItem → Prop where
  | mk (cs : List ChangeTreeItem) (hnodup : (folderLabels cs).Nodup)
       (hchildren : ∀ c ∈ cs, WFForest c.children) : WFForest cs

/-- Second structural invariant of built forests: file-type nodes own no
children, at every level. -/
inductive FileNodesChildless : List ChangeTreeItem → Prop where
  | mk (cs : List ChangeTreeItem)
       (hleaf : ∀ c ∈ cs, c.isFolder = false → c.children = [])
       (hchildren : ∀ c ∈ cs, FileNodesChildless c.children) : FileNodesChildless cs

/-- No duplicates in a list of labels, as a boolean. -/
def labelsDistinct : List String → Bool
  | [] => true
  | l :: ls => !(ls.contains l) && labelsDistinct ls

mutual
/-- Whether, below this node, every sibling list is free of name
collisions — the property claimed by the specification's sibling-collision
invariant, over file and folder children alike. -/
def itemNamesOk : ChangeTreeItem → Bool
  | .mk _ _ _ _ cs => labelsDistinct (cs.map ChangeTreeItem.label) && itemsNamesOk cs
def itemsNamesOk : List ChangeTreeItem → Bool
  | [] => true
  | c :: cs => itemNamesOk c && itemsNamesOk cs
end

/-- The specification's claimed invariant "at most one child per distinct
name under any directory node, and within the root list", over all children
(files and folders alike). -/
def noSiblingCollisions (roots : List ChangeTreeItem) : Bool :=
  labelsDistinct (roots.map ChangeTreeItem.label) && itemsNamesOk roots

/-! ## Query harness and concrete inputs used in the claims -/

/-- One pull query against the provider, as issued by the rendering host:
a children request (with or without an element) or a parent request. -/
inductive ProviderQuery where
  | childrenOf (element : Option ChangeTreeItem)
  | parentOf (element : ChangeTreeItem)

/-- The provider state left behind by one query: the state component of the
corresponding transformer. -/
def runQuery (s : ProviderState) : ProviderQuery → ProviderState
  | ProviderQuery.childrenOf e => (ChangesTreeProvider.getChildren s e).2
  | ProviderQuery.parentOf e => (ChangesTreeProvider.getParent s e).2

/-- A directory-mode comparison context over the repository root. -/
def exampleContext : CompareContext :=
  { basePath := "/repo", ref := "HEAD", refLabel := "HEAD", repoRoot := "/repo",
    isDirectory := true }

/-- A single-file comparison context for `/repo/a.txt`. -/
def singleFileContext : CompareContext :=
  { basePath := "/repo/a.txt", ref := "HEAD", refLabel := "HEAD", repoRoot := "/repo",
    isDirectory := false }

/-- An external-call oracle whose every invocation fails (a rejected
`execFileAsync` promise). -/
def failingGit : String → String → String → Except String String :=
  fun _ _ _ => Except.error "fatal: not a git repository"

/-- The specification's ordering example: `dir/a.txt`, `dir/sub/b.txt`,
`top.txt`, given here out of sorted order. -/
def exampleRecordsC5 : List DiffFileInfo :=
  [ { status := "D", path := "top.txt" },
    { status := "M", path := "dir/sub/b.txt" },
    { status := "A", path := "dir/a.txt" } ]

/-- The specification's aggregate-count example:
`a/b/x.txt`, `a/b/y.txt`, `a/c.txt`. -/
def exampleNestedRecords : List DiffFileInfo :=
  [ { status := "M", path := "a/b/x.txt" },
    { status := "A", path := "a/b/y.txt" },
    { status := "D", path := "a/c.txt" } ]

/-- A record list with a duplicated path. -/
def duplicatedRecords : List DiffFileInfo :=
  [ { status := "M", path := "notes.txt" },
    { status := "A", path := "notes.txt" } ]

/-- A second record list with a duplicated path (sibling-collision input). -/
def collidingRecords : List DiffFileInfo :=
  [ { status := "M", path := "x.txt" },
    { status := "A", path := "x.txt" } ]

/-- The root folder `a` of the tree built from `exampleNestedRecords`. -/
def exampleFolderA : ChangeTreeItem :=
  (buildTreeStructure (some exampleContext) exampleNestedRecords).headD
    (ChangeTreeItem.mk "" false none "" [])

/-- The nested folder `a/b` of the tree built from `exampleNestedRecords`. -/
def exampleFolderB : ChangeTreeItem :=
  exampleFolderA.children.headD (ChangeTreeItem.mk "" false none "" [])

/-! ## Lemmas: the character-level splitter -/

theorem splitOnChar_ne_nil (sep : Char) (cs : List Char) : splitOnChar sep cs ≠ [] := by
  induction cs with
  | nil => simp [splitOnChar]
  | cons c rest ih =>
    simp only [splitOnChar]
    cases hh : splitOnChar sep rest with
    | nil => exact absurd hh ih
    | cons piece pieces => by_cases hc : c = sep <;> simp [hc]

theorem joinChar_splitOnChar (sep : Char) (cs : List Char) :
    joinChar sep (splitOnChar sep cs) = cs := by
  induction cs with
  | nil => simp [splitOnChar, joinChar]
  | cons c rest ih =>
    simp only [splitOnChar]
    cases hh : splitOnChar sep rest with
    | nil => exact absurd hh (splitOnChar_ne_nil sep rest)
    | cons piece pieces =>
      rw [hh] at ih
      by_cases hc : c = sep
      · subst hc
        cases pieces <;> simp [joinChar] at ih ⊢ <;> simp [ih]
      · simp only [if_neg hc]
        cases pieces with
        | nil => simp [joinChar] at ih ⊢; simp [ih]
        | cons q qs => simp [joinChar] at ih ⊢; simp [ih]

theorem splitStr_injective (sep : Char) {p q : String}
    (h : splitStr sep p = splitStr sep q) : p = q := by
  have hdata : splitOnChar sep p.data = splitOnChar sep q.data := by
    have hmap := congrArg (List.map String.data) h
    simp only [splitStr, List.map_map] at hmap
    have hco : (String.data ∘ fun cs => String.mk cs) = id := funext fun cs => rfl
    rw [hco, List.map_id, List.map_id] at hmap
    exact hmap
  have := congrArg (joinChar sep) hdata
  rw [joinChar_splitOnChar, joinChar_splitOnChar] at this
  exact String.ext this

theorem splitPath_injective {p q : String} (h : splitPath p = splitPath q) : p = q :=
  splitStr_injective '/' h

theorem splitPath_ne_nil (p : String) : splitPath p ≠ [] := by
  intro h
  simp only [splitPath, splitStr] at h
  exact splitOnChar_ne_nil '/' p.data (List.map_eq_nil_iff.mp h)

theorem dropLast_append_getLastD {α : Type} (l : List α) (d : α) (h : l ≠ []) :
    l.dropLast ++ [l.getLastD d] = l := by
  induction l with
  | nil => exact absurd rfl h
  | cons a t ih =>
    cases t with
    | nil => simp
    | cons b t2 =>
      have := ih (by simp)
      simpa using this

/-! ## Lemmas: the comparator model -/

theorem cmpLeChars_total (a b : List Char) :
    cmpLeChars a b = true ∨ cmpLeChars b a = true := by
  induction a generalizing b with
  | nil => left; simp [cmpLeChars]
  | cons x xs ih =>
    cases b with
    | nil => right; simp [cmpLeChars]
    | cons y ys =>
      simp only [cmpLeChars]
      by_cases h : x.toNat = y.toNat
      · rw [if_pos h, if_pos h.symm]
        exact ih ys
      · rw [if_neg h, if_neg (Ne.symm h)]
        simp only [decide_eq_true_eq]
        omega

theorem cmpLeChars_trans {a b c : List Char}
    (h1 : cmpLeChars a b = true) (h2 : cmpLeChars b c = true) :
    cmpLeChars a c = true := by
  induction a generalizing b c with
  | nil => simp [cmpLeChars]
  | cons x xs ih =>
    cases b with
    | nil => simp [cmpLeChars] at h1
    | cons y ys =>
      cases c with
      | nil => simp [cmpLeChars] at h2
      | cons z zs =>
        simp only [cmpLeChars] at h1 h2 ⊢
        by_cases hxy : x.toNat = y.toNat <;> by_cases hyz : y.toNat = z.toNat
        · rw [if_pos hxy] at h1
          rw [if_pos hyz] at h2
          rw [if_pos (hxy.trans hyz)]
          exact ih h1 h2
        · rw [if_neg (fun hxz => hyz (hxy.symm.trans hxz))]
          rw [if_neg hyz] at h2
          rw [hxy]
          exact h2
        · rw [if_neg hxy] at h1
          rw [if_neg (fun hxz => hxy (hxz.trans hyz.symm))]
          rw [← hyz]
          exact h1
        · rw [if_neg hxy] at h1
          rw [if_neg hyz] at h2
          simp only [decide_eq_true_eq] at h1 h2
          have hxz : x.toNat < z.toNat := h1.trans h2
          rw [if_neg (Nat.ne_of_lt hxz)]
          simp [hxz]

theorem localeCompareLe_total (a b : String) :
    localeCompareLe a b = true ∨ localeCompareLe b a = true :=
  cmpLeChars_total a.data b.data

theorem localeCompareLe_trans {a b c : String}
    (h1 : localeCompareLe a b = true) (h2 : localeCompareLe b c = true) :
    localeCompareLe a c = true :=
  cmpLeChars_trans h1 h2

/-! ## Lemmas: the stable sort -/

theorem insertSorted_perm (a : DiffFileInfo) (l : List DiffFileInfo) :
    (insertSorted a l).Perm (a :: l) := by
  induction l with
  | nil => simp [insertSorted]
  | cons b bs ih =>
    simp only [insertSorted]
    split
    · exact (ih.cons b).trans (List.Perm.swap a b bs)
    · exact List.Perm.refl _

theorem sortByPath_perm (files : List DiffFileInfo) :
    (sortByPath files).Perm files := by
  suffices h : ∀ (l acc : List DiffFileInfo),
      (l.foldl (fun acc f => insertSorted f acc) acc).Perm (acc ++ l) by
    simpa using h files []
  intro l
  induction l with
  | nil => simp
  | cons f fs ih =>
    intro acc
    simp only [List.foldl]
    refine (ih (insertSorted f acc)).trans ?_
    refine (((insertSorted_perm f acc).append_right fs).trans ?_)
    simpa using List.perm_middle.symm

theorem pairwise_insertSorted (a : DiffFileInfo) (l : List DiffFileInfo)
    (h : l.Pairwise (fun x y => localeCompareLe x.path y.path = true)) :
    (insertSorted a l).Pairwise (fun x y => localeCompareLe x.path y.path = true) := by
  induction l with
  | nil => simp [insertSorted]
  | cons b bs ih =>
    rcases List.pairwise_cons.mp h with ⟨hb, hbs⟩
    simp only [insertSorted]
    split
    · rename_i hba
      refine List.pairwise_cons.mpr ⟨?_, ih hbs⟩
      intro x hx
      rcases List.mem_cons.mp ((insertSorted_perm a bs).mem_iff.mp hx) with rfl | hxbs
      · exact hba
      · exact hb x hxbs
    · rename_i hba
      have hab : localeCompareLe a.path b.path = true := by
        rcases localeCompareLe_total a.path b.path with h1 | h1
        · exact h1
        · exact absurd h1 hba
      refine List.pairwise_cons.mpr ⟨?_, h⟩
      intro x hx
      rcases List.mem_cons.mp hx with rfl | hxbs
      · exact hab
      · exact localeCompareLe_trans hab (hb x hxbs)

theorem sortByPath_pairwise (files : List DiffFileInfo) :
    (sortByPath files).Pairwise (fun x y => localeCompareLe x.path y.path = true) := by
  suffices h : ∀ (l acc : List DiffFileInfo),
      acc.Pairwise (fun x y => localeCompareLe x.path y.path = true) →
      (l.foldl (fun acc f => insertSorted f acc) acc).Pairwise
        (fun x y => localeCompareLe x.path y.path = true) by
    exact h files [] (by simp)
  intro l
  induction l with
  | nil => intro acc hacc; simpa using hacc
  | cons f fs ih =>
    intro acc hacc
    exact ih (insertSorted f acc) (pairwise_insertSorted f acc hacc)

theorem insertSorted_of_forall_le (a : DiffFileInfo) (l : List DiffFileInfo)
    (h : ∀ b ∈ l, localeCompareLe b.path a.path = true) :
    insertSorted a l = l ++ [a] := by
  induction l with
  | nil => simp [insertSorted]
  | cons b bs ih =>
    simp only [insertSorted]
    rw [if_pos (h b (by simp))]
    simp [ih (fun x hx => h x (by simp [hx]))]

theorem sortByPath_eq_self (l : List DiffFileInfo)
    (h : l.Pairwise (fun x y => localeCompareLe x.path y.path = true)) :
    sortByPath l = l := by
  suffices haux : ∀ (l acc : List DiffFileInfo),
      (acc ++ l).Pairwise (fun x y => localeCompareLe x.path y.path = true) →
      l.foldl (fun acc f => insertSorted f acc) acc = acc ++ l by
    simpa using haux l [] (by simpa using h)
  intro l
  induction l with
  | nil => intro acc _; simp
  | cons f fs ih =>
    intro acc hacc
    have hcross : ∀ b ∈ acc, localeCompareLe b.path f.path = true := by
      intro b hb
      exact (List.pairwise_append.mp hacc).2.2 b hb f (by simp)
    simp only [List.foldl]
    rw [insertSorted_of_forall_le f acc hcross]
    rw [ih (acc ++ [f]) (by simpa using hacc)]
    simp

theorem sortByPath_idem (l : List DiffFileInfo) :
    sortByPath (sortByPath l) = sortByPath l :=
  sortByPath_eq_self _ (sortByPath_pairwise l)

theorem sortByPath_length (l : List DiffFileInfo) :
    (sortByPath l).length = l.length :=
  (sortByPath_perm l).length_eq

/-! ## Lemmas: tree-item helpers -/

theorem isFolderNamed_iff {d : String} {c : ChangeTreeItem} :
    isFolderNamed d c = true ↔ c.isFolder = true ∧ c.label = d := by
  simp [isFolderNamed, Bool.and_eq_true, beq_iff_eq]

theorem setChildren_label (c : ChangeTreeItem) (cs : List ChangeTreeItem) :
    (setChildren c cs).label = c.label := by cases c; rfl

theorem setChildren_isFolder (c : ChangeTreeItem) (cs : List ChangeTreeItem) :
    (setChildren c cs).isFolder = c.isFolder := by cases c; rfl

theorem setChildren_children (c : ChangeTreeItem) (cs : List ChangeTreeItem) :
    (setChildren c cs).children = cs := by cases c; rfl

theorem fileLeafOf_isFolder (r : DiffFileInfo) : (fileLeafOf r).isFolder = false := rfl

theorem fileLeafOf_children (r : DiffFileInfo) : (fileLeafOf r).children = [] := rfl

theorem fileLeafOf_label (r : DiffFileInfo) :
    (fileLeafOf r).label = (splitPath r.path).getLastD "" := rfl

/-! ## Lemmas: `filesAt` -/

theorem filesAt_nil (segs : List String) : filesAt [] segs = [] := by
  cases segs with
  | nil => rfl
  | cons s rest => cases rest <;> simp [filesAt]

theorem filesAt_append (xs ys : List ChangeTreeItem) (segs : List String) :
    filesAt (xs ++ ys) segs = filesAt xs segs ++ filesAt ys segs := by
  cases segs with
  | nil => rfl
  | cons s rest =>
    cases rest with
    | nil => simp [filesAt, List.filter_append]
    | cons b r => simp [filesAt, List.filter_append]

theorem filesAt_single_file (leaf : ChangeTreeItem) (hfile : leaf.isFolder = false)
    (segs : List String) :
    filesAt [leaf] segs = if segs = [leaf.label] then [leaf] else [] := by
  cases segs with
  | nil => simp [filesAt]
  | cons s rest =>
    cases rest with
    | nil =>
      simp only [filesAt, List.filter_cons, List.filter_nil]
      by_cases hl : leaf.label = s
      · simp [hfile, hl]
      · have h2 : ¬(s = leaf.label) := fun h => hl h.symm
        simp [hfile, beq_eq_false_iff_ne.mpr hl, h2]
    | cons b r =>
      have : isFolderNamed s leaf = false := by
        simp [isFolderNamed, hfile]
      simp [filesAt, List.filter, this]

/-! ## Lemmas: folder labels and `replaceFirstFolder` -/

theorem folderLabels_cons_folder {a : ChangeTreeItem} (h : a.isFolder = true)
    (t : List ChangeTreeItem) : folderLabels (a :: t) = a.label :: folderLabels t := by
  simp [folderLabels, List.filter_cons, h]

theorem folderLabels_cons_file {a : ChangeTreeItem} (h : a.isFolder = false)
    (t : List ChangeTreeItem) : folderLabels (a :: t) = folderLabels t := by
  simp [folderLabels, List.filter_cons, h]

theorem folderLabels_append (l1 l2 : List ChangeTreeItem) :
    folderLabels (l1 ++ l2) = folderLabels l1 ++ folderLabels l2 := by
  simp [folderLabels, List.filter_append]

theorem mem_folderLabels_of {x : ChangeTreeItem} {l : List ChangeTreeItem}
    (hf : x.isFolder = true) (hx : x ∈ l) : x.label ∈ folderLabels l := by
  simp only [folderLabels, List.mem_map]
  exact ⟨x, List.mem_filter.mpr ⟨hx, hf⟩, rfl⟩

theorem folderLabels_nodup_tail {a : ChangeTreeItem} {t : List ChangeTreeItem}
    (h : (folderLabels (a :: t)).Nodup) : (folderLabels t).Nodup := by
  cases hf : a.isFolder with
  | true => rw [folderLabels_cons_folder hf] at h; exact h.of_cons
  | false => rw [folderLabels_cons_file hf] at h; exact h

theorem find?_isFolderNamed_decomp {d : String} {forest : List ChangeTreeItem}
    {c : ChangeTreeItem} (h : forest.find? (isFolderNamed d) = some c) :
    ∃ l1 l2, forest = l1 ++ c :: l2 ∧ (∀ x ∈ l1, isFolderNamed d x = false) ∧
      ∀ n, replaceFirstFolder d n forest = l1 ++ n :: l2 := by
  induction forest with
  | nil => simp [List.find?] at h
  | cons a t ih =>
    by_cases ha : isFolderNamed d a = true
    · rw [List.find?_cons_of_pos _ ha] at h
      have hac : a = c := by injection h
      subst hac
      exact ⟨[], t, by simp, by simp, fun n => by simp [replaceFirstFolder, ha]⟩
    · have ha2 : isFolderNamed d a = false := by
        cases hh : isFolderNamed d a with
        | true => exact absurd hh ha
        | false => rfl
      rw [List.find?_cons_of_neg _ ha] at h
      obtain ⟨l1, l2, h1, h2, h3⟩ := ih h
      refine ⟨a :: l1, l2, by simp [h1], ?_, fun n => ?_⟩
      · intro x hx
        rcases List.mem_cons.mp hx with rfl | hxl1
        · exact ha2
        · exact h2 x hxl1
      · simp only [replaceFirstFolder, ha2]
        rw [if_neg (by simp [ha2]), h3 n]
        simp

theorem no_folder_in_l2 {d : String} {l1 l2 : List ChangeTreeItem} {c : ChangeTreeItem}
    (hc : isFolderNamed d c = true)
    (hnodup : (folderLabels (l1 ++ c :: l2)).Nodup) :
    ∀ x ∈ l2, isFolderNamed d x = false := by
  intro x hx
  obtain ⟨hcf, hcl⟩ := isFolderNamed_iff.mp hc
  cases hxf : isFolderNamed d x with
  | false => rfl
  | true =>
    obtain ⟨hxf2, hxl⟩ := isFolderNamed_iff.mp hxf
    rw [folderLabels_append, folderLabels_cons_folder hcf] at hnodup
    have hmem : x.label ∈ folderLabels l2 := mem_folderLabels_of hxf2 hx
    have : c.label ∉ folderLabels l2 := by
      have hnd := (List.nodup_append.mp hnodup).2.1
      exact (List.nodup_cons.mp hnd).1
    rw [hcl] at this
    rw [hxl] at hmem
    exact absurd hmem this

theorem filter_eq_nil_of_all_false {α : Type} {p : α → Bool} {l : List α}
    (h : ∀ x ∈ l, p x = false) : l.filter p = [] := by
  apply List.filter_eq_nil_iff.mpr
  intro a ha
  simp [h a ha]

theorem filter_isFolderNamed_decomp {d : String} {l1 l2 : List ChangeTreeItem}
    {c : ChangeTreeItem} (hc : isFolderNamed d c = true)
    (hl1 : ∀ x ∈ l1, isFolderNamed d x = false)
    (hnodup : (folderLabels (l1 ++ c :: l2)).Nodup) :
    (l1 ++ c :: l2).filter (isFolderNamed d) = [c] := by
  rw [List.filter_append, filter_eq_nil_of_all_false hl1, List.filter_cons, if_pos (by simp [hc]),
    filter_eq_nil_of_all_false (no_folder_in_l2 hc hnodup)]
  simp

theorem WFForest.nodupLabels {cs : List ChangeTreeItem} (h : WFForest cs) :
    (folderLabels cs).Nodup := by
  cases h with | mk _ h1 _ => exact h1

theorem WFForest.childrenWF {cs : List ChangeTreeItem} (h : WFForest cs)
    {c : ChangeTreeItem} (hc : c ∈ cs) : WFForest c.children := by
  cases h with | mk _ _ h2 => exact h2 c hc

theorem isFolderNamed_mk_true (d : String) (fi : Option DiffFileInfo) (fp : String)
    (cs : List ChangeTreeItem) :
    isFolderNamed d (ChangeTreeItem.mk d true fi fp cs) = true := by
  simp [isFolderNamed, ChangeTreeItem.isFolder, ChangeTreeItem.label]

theorem isFolderNamed_mk_false {s d : String} (h : ¬d = s) (fi : Option DiffFileInfo)
    (fp : String) (cs : List ChangeTreeItem) :
    isFolderNamed s (ChangeTreeItem.mk d true fi fp cs) = false := by
  simp only [isFolderNamed, ChangeTreeItem.isFolder, ChangeTreeItem.label, Bool.true_and]
  exact beq_eq_false_iff_ne.mpr h

theorem insertSegs_nil_forest (leaf : ChangeTreeItem) (cur d : String) (ds : List String) :
    insertSegs leaf cur (d :: ds) [] =
      [ChangeTreeItem.mk d true none (if cur == "" then d else cur ++ "/" ++ d)
        (insertSegs leaf (if cur == "" then d else cur ++ "/" ++ d) ds [])] := by
  simp [insertSegs, List.find?]

theorem filesAt_chain (leaf : ChangeTreeItem) (hfile : leaf.isFolder = false) :
    ∀ (dirs : List String) (cur : String) (segs : List String),
      filesAt (insertSegs leaf cur dirs []) segs =
        if segs = dirs ++ [leaf.label] then [leaf] else [] := by
  intro dirs
  induction dirs with
  | nil =>
    intro cur segs
    simp only [insertSegs, List.nil_append]
    exact filesAt_single_file leaf hfile segs
  | cons d ds ih =>
    intro cur segs
    rw [insertSegs_nil_forest]
    cases segs with
    | nil => simp [filesAt]
    | cons s rest =>
      cases rest with
      | nil =>
        have hne : ([s] : List String) ≠ d :: (ds ++ [leaf.label]) := by
          intro h
          have := congrArg List.length h
          simp at this
        simp [filesAt, List.filter_cons, ChangeTreeItem.isFolder, hne]
      | cons b r =>
        by_cases hs : s = d
        · subst hs
          simp only [filesAt, List.filter_cons, isFolderNamed_mk_true, if_true, List.filter_nil,
            List.map_cons, List.map_nil, List.flatten_cons, List.flatten_nil, List.append_nil,
            ChangeTreeItem.children]
          rw [ih (if cur == "" then s else cur ++ "/" ++ s) (b :: r)]
          by_cases hrest : (b :: r) = ds ++ [leaf.label] <;> simp [hrest]
        · have hne : (s :: b :: r : List String) ≠ d :: (ds ++ [leaf.label]) := by
            intro h
            exact hs (by injection h)
          simp [filesAt, List.filter_cons, isFolderNamed_mk_false (fun h => hs h.symm), hne]

theorem insertSegs_cons_none {d : String} {forest : List ChangeTreeItem}
    (h : forest.find? (isFolderNamed d) = none) (leaf : ChangeTreeItem) (cur : String)
    (ds : List String) :
    insertSegs leaf cur (d :: ds) forest =
      forest ++ [ChangeTreeItem.mk d true none (if cur == "" then d else cur ++ "/" ++ d)
        (insertSegs leaf (if cur == "" then d else cur ++ "/" ++ d) ds [])] := by
  simp [insertSegs, h]

theorem insertSegs_cons_some {d : String} {forest : List ChangeTreeItem} {c : ChangeTreeItem}
    (h : forest.find? (isFolderNamed d) = some c) (leaf : ChangeTreeItem) (cur : String)
    (ds : List String) :
    insertSegs leaf cur (d :: ds) forest =
      replaceFirstFolder d
        (setChildren c (insertSegs leaf (if cur == "" then d else cur ++ "/" ++ d) ds c.children))
        forest := by
  simp [insertSegs, h]

theorem filesAt_insertSegs (leaf : ChangeTreeItem) (hfile : leaf.isFolder = false) :
    ∀ (dirs : List String) (cur : String) (forest : List ChangeTreeItem) (segs : List String),
      WFForest forest →
      filesAt (insertSegs leaf cur dirs forest) segs =
        if segs = dirs ++ [leaf.label] then filesAt forest segs ++ [leaf]
        else filesAt forest segs := by
  intro dirs
  induction dirs with
  | nil =>
    intro cur forest segs _
    simp only [insertSegs, List.nil_append]
    rw [filesAt_append, filesAt_single_file leaf hfile segs]
    split <;> simp
  | cons d ds ih =>
    intro cur forest segs hwf
    cases hfind : forest.find? (isFolderNamed d) with
    | none =>
      rw [insertSegs_cons_none hfind, filesAt_append]
      have hch := filesAt_chain leaf hfile (d :: ds) cur segs
      rw [insertSegs_nil_forest] at hch
      rw [hch]
      split <;> simp
    | some c =>
      rw [insertSegs_cons_some hfind]
      obtain ⟨l1, l2, hdecomp, hl1, hrepl⟩ := find?_isFolderNamed_decomp hfind
      have hc : isFolderNamed d c = true := List.find?_some hfind
      obtain ⟨hcf, hcl⟩ := isFolderNamed_iff.mp hc
      have hnodup := hwf.nodupLabels
      have hcmem : c ∈ forest := List.mem_of_find?_eq_some hfind
      have hwfc : WFForest c.children := hwf.childrenWF hcmem
      rw [hrepl]
      rw [hdecomp] at hnodup ⊢
      cases segs with
      | nil => simp [filesAt]
      | cons s rest =>
        cases rest with
        | nil =>
          have hnf : (!(setChildren c (insertSegs leaf (if cur == "" then d else cur ++ "/" ++ d)
              ds c.children)).isFolder
              && (setChildren c (insertSegs leaf (if cur == "" then d else cur ++ "/" ++ d)
              ds c.children)).label == s) = false := by
            rw [setChildren_isFolder, hcf]
            simp
          have hcfne : (!c.isFolder && c.label == s) = false := by
            rw [hcf]
            simp
          have hne2 : ([s] : List String) ≠ d :: (ds ++ [leaf.label]) := by
            intro h
            have := congrArg List.length h
            simp at this
          simp only [filesAt, List.filter_append, List.filter_cons, hnf, hcfne,
            List.cons_append]
          rw [if_neg hne2]
          simp
        | cons b r =>
          by_cases hs : s = d
          · subst hs
            have hfl_before : (l1 ++ c :: l2).filter (isFolderNamed s) = [c] :=
              filter_isFolderNamed_decomp hc hl1 hnodup
            have hncn : isFolderNamed s (setChildren c
                (insertSegs leaf (if cur == "" then s else cur ++ "/" ++ s) ds c.children)) = true := by
              rw [isFolderNamed_iff, setChildren_isFolder, setChildren_label]
              exact ⟨hcf, hcl⟩
            have hfl_after : (l1 ++ setChildren c
                (insertSegs leaf (if cur == "" then s else cur ++ "/" ++ s) ds c.children) :: l2).filter
                  (isFolderNamed s) = [setChildren c
                (insertSegs leaf (if cur == "" then s else cur ++ "/" ++ s) ds c.children)] := by
              rw [List.filter_append, filter_eq_nil_of_all_false hl1, List.filter_cons, hncn,
                filter_eq_nil_of_all_false (no_folder_in_l2 hc hnodup)]
              simp
            simp only [filesAt, hfl_before, hfl_after, List.map_cons, List.map_nil,
              List.flatten_cons, List.flatten_nil, List.append_nil]
            rw [setChildren_children]
            rw [ih (if cur == "" then s else cur ++ "/" ++ s) c.children (b :: r) hwfc]
            by_cases hrest : (b :: r) = ds ++ [leaf.label] <;> simp [hrest]
          · have hcs : isFolderNamed s c = false := by
              cases hh : isFolderNamed s c with
              | false => rfl
              | true =>
                obtain ⟨_, hl⟩ := isFolderNamed_iff.mp hh
                exact absurd (hl.symm.trans hcl) hs
            have hns : isFolderNamed s (setChildren c
                (insertSegs leaf (if cur == "" then d else cur ++ "/" ++ d) ds c.children)) = false := by
              cases hh : isFolderNamed s (setChildren c
                  (insertSegs leaf (if cur == "" then d else cur ++ "/" ++ d) ds c.children)) with
              | false => rfl
              | true =>
                obtain ⟨_, hl⟩ := isFolderNamed_iff.mp hh
                rw [setChildren_label] at hl
                exact absurd (hl.symm.trans hcl) hs
            have hne : (s :: b :: r : List String) ≠ d :: (ds ++ [leaf.label]) := by
              intro h
              exact hs (by injection h)
            simp only [filesAt, List.filter_append, List.filter_cons, hcs, hns,
              List.cons_append]
            rw [if_neg hne]
            simp

/-! ## Lemmas: invariants preserved by insertion -/

theorem folderLabels_nil : folderLabels [] = [] := rfl

theorem not_mem_folderLabels_of_find?_none {d : String} {forest : List ChangeTreeItem}
    (h : forest.find? (isFolderNamed d) = none) : d ∉ folderLabels forest := by
  intro hmem
  simp only [folderLabels, List.mem_map] at hmem
  obtain ⟨x, hxf, hxl⟩ := hmem
  obtain ⟨hxmem, hxfold⟩ := List.mem_filter.mp hxf
  exact (List.find?_eq_none.mp h x hxmem) (isFolderNamed_iff.mpr ⟨hxfold, hxl⟩)

theorem WFForest_nil : WFForest [] :=
  WFForest.mk [] (by simp [folderLabels_nil]) (by simp)

theorem WFForest_insertSegs (leaf : ChangeTreeItem) (hfile : leaf.isFolder = false)
    (hlc : leaf.children = []) :
    ∀ (dirs : List String) (cur : String) (forest : List ChangeTreeItem),
      WFForest forest → WFForest (insertSegs leaf cur dirs forest) := by
  intro dirs
  induction dirs with
  | nil =>
    intro cur forest hwf
    simp only [insertSegs]
    constructor
    · rw [folderLabels_append, folderLabels_cons_file hfile, folderLabels_nil, List.append_nil]
      exact hwf.nodupLabels
    · intro c hc
      rcases List.mem_append.mp hc with hcf | hcl2
      · exact hwf.childrenWF hcf
      · rw [List.eq_of_mem_singleton hcl2, hlc]
        exact WFForest_nil
  | cons d ds ih =>
    intro cur forest hwf
    cases hfind : forest.find? (isFolderNamed d) with
    | none =>
      rw [insertSegs_cons_none hfind]
      constructor
      · rw [folderLabels_append,
          folderLabels_cons_folder (show ChangeTreeItem.isFolder (ChangeTreeItem.mk d true none
            (if cur == "" then d else cur ++ "/" ++ d)
            (insertSegs leaf (if cur == "" then d else cur ++ "/" ++ d) ds [])) = true from rfl),
          folderLabels_nil]
        rw [List.nodup_append]
        refine ⟨hwf.nodupLabels, by simp, ?_⟩
        intro a ha
        simp only [List.mem_singleton]
        intro heq
        subst heq
        exact absurd ha (not_mem_folderLabels_of_find?_none hfind)
      · intro c hc
        rcases List.mem_append.mp hc with hcf | hc1
        · exact hwf.childrenWF hcf
        · rw [List.eq_of_mem_singleton hc1]
          exact ih _ [] WFForest_nil
    | some c =>
      rw [insertSegs_cons_some hfind]
      obtain ⟨l1, l2, hdecomp, hl1, hrepl⟩ := find?_isFolderNamed_decomp hfind
      have hc : isFolderNamed d c = true := List.find?_some hfind
      obtain ⟨hcf, hcl⟩ := isFolderNamed_iff.mp hc
      have hcmem : c ∈ forest := List.mem_of_find?_eq_some hfind
      have hwfc : WFForest c.children := hwf.childrenWF hcmem
      rw [hrepl]
      rw [hdecomp] at hwf
      constructor
      · have heq : folderLabels (l1 ++ setChildren c
            (insertSegs leaf (if cur == "" then d else cur ++ "/" ++ d) ds c.children) :: l2) =
            folderLabels (l1 ++ c :: l2) := by
          rw [folderLabels_append, folderLabels_append,
            folderLabels_cons_folder (by rw [setChildren_isFolder]; exact hcf),
            folderLabels_cons_folder hcf, setChildren_label]
        rw [heq]
        exact hwf.nodupLabels
      · intro x hx
        rcases List.mem_append.mp hx with hx1 | hx2
        · exact hwf.childrenWF (by simp [hx1])
        · rcases List.mem_cons.mp hx2 with rfl | hxl2
          · rw [setChildren_children]
            exact ih _ c.children hwfc
          · exact hwf.childrenWF (by simp [hxl2])

theorem countFiles_eq_children (c : ChangeTreeItem) :
    countFiles c = countFilesList c.children := by
  cases c
  rfl

theorem countFilesList_append (xs ys : List ChangeTreeItem) :
    countFilesList (xs ++ ys) = countFilesList xs + countFilesList ys := by
  induction xs with
  | nil => simp [countFilesList]
  | cons c cs ih => simp [countFilesList, ih]; omega

theorem countFilesList_insertSegs (leaf : ChangeTreeItem) (hfile : leaf.isFolder = false) :
    ∀ (dirs : List String) (cur : String) (forest : List ChangeTreeItem),
      countFilesList (insertSegs leaf cur dirs forest) = countFilesList forest + 1 := by
  intro dirs
  induction dirs with
  | nil =>
    intro cur forest
    simp only [insertSegs]
    rw [countFilesList_append]
    simp [countFilesList, hfile]
  | cons d ds ih =>
    intro cur forest
    cases hfind : forest.find? (isFolderNamed d) with
    | none =>
      rw [insertSegs_cons_none hfind, countFilesList_append]
      have : countFilesList [ChangeTreeItem.mk d true none
          (if cur == "" then d else cur ++ "/" ++ d)
          (insertSegs leaf (if cur == "" then d else cur ++ "/" ++ d) ds [])] = 1 := by
        simp [countFilesList, countFiles, ChangeTreeItem.isFolder, ih]
      rw [this]
    | some c =>
      rw [insertSegs_cons_some hfind]
      obtain ⟨l1, l2, hdecomp, hl1, hrepl⟩ := find?_isFolderNamed_decomp hfind
      have hc : isFolderNamed d c = true := List.find?_some hfind
      obtain ⟨hcf, hcl⟩ := isFolderNamed_iff.mp hc
      rw [hrepl, hdecomp, countFilesList_append, countFilesList_append]
      simp only [countFilesList, setChildren_isFolder, hcf, if_true, if_pos]
      rw [countFiles_eq_children, setChildren_children, ih, countFiles_eq_children,
        ← countFiles_eq_children c]
      rw [countFiles_eq_children c]
      omega

theorem allFilesList_append (xs ys : List ChangeTreeItem) :
    allFilesList (xs ++ ys) = allFilesList xs ++ allFilesList ys := by
  induction xs with
  | nil => simp [allFilesList]
  | cons c cs ih => simp [allFilesList, ih]

theorem allFilesItem_folder {c : ChangeTreeItem} (hcf : c.isFolder = true) :
    allFilesItem c = allFilesList c.children := by
  cases c with
  | mk l f i p cs =>
    simp only [ChangeTreeItem.isFolder] at hcf
    simp [allFilesItem, hcf, ChangeTreeItem.children]

theorem allFilesItem_file {c : ChangeTreeItem} (hcf : c.isFolder = false) :
    allFilesItem c = [c] := by
  cases c with
  | mk l f i p cs =>
    simp only [ChangeTreeItem.isFolder] at hcf
    simp [allFilesItem, hcf]

theorem allFilesList_insertSegs_perm (leaf : ChangeTreeItem) (hfile : leaf.isFolder = false) :
    ∀ (dirs : List String) (cur : String) (forest : List ChangeTreeItem),
      (allFilesList (insertSegs leaf cur dirs forest)).Perm (leaf :: allFilesList forest) := by
  intro dirs
  induction dirs with
  | nil =>
    intro cur forest
    simp only [insertSegs]
    rw [allFilesList_append]
    have : allFilesList [leaf] = [leaf] := by
      simp [allFilesList, allFilesItem_file hfile]
    rw [this]
    exact List.perm_append_singleton leaf (allFilesList forest)
  | cons d ds ih =>
    intro cur forest
    cases hfind : forest.find? (isFolderNamed d) with
    | none =>
      rw [insertSegs_cons_none hfind, allFilesList_append]
      have hchain : allFilesList [ChangeTreeItem.mk d true none
          (if cur == "" then d else cur ++ "/" ++ d)
          (insertSegs leaf (if cur == "" then d else cur ++ "/" ++ d) ds [])] = allFilesList
          (insertSegs leaf (if cur == "" then d else cur ++ "/" ++ d) ds []) := by
        simp [allFilesList, allFilesItem]
      rw [hchain]
      have hp := ih (if cur == "" then d else cur ++ "/" ++ d) []
      have : allFilesList (insertSegs leaf (if cur == "" then d else cur ++ "/" ++ d) ds []) =
          [leaf] := by
        have := hp.trans (by simp [allFilesList] : (leaf :: allFilesList []).Perm [leaf])
        exact List.perm_singleton.mp this
      rw [this]
      exact List.perm_append_singleton leaf (allFilesList forest)
    | some c =>
      rw [insertSegs_cons_some hfind]
      obtain ⟨l1, l2, hdecomp, hl1, hrepl⟩ := find?_isFolderNamed_decomp hfind
      have hc : isFolderNamed d c = true := List.find?_some hfind
      obtain ⟨hcf, hcl⟩ := isFolderNamed_iff.mp hc
      rw [hrepl, hdecomp]
      rw [allFilesList_append, allFilesList_append]
      simp only [allFilesList]
      rw [allFilesItem_folder (by rw [setChildren_isFolder]; exact hcf), setChildren_children,
        allFilesItem_folder hcf]
      have hp := ih (if cur == "" then d else cur ++ "/" ++ d) c.children
      refine ((hp.append_right (allFilesList l2)).append_left (allFilesList l1)).trans ?_
      simp only [List.cons_append]
      exact List.perm_middle

theorem FileNodesChildless.leafCond {cs : List ChangeTreeItem} (h : FileNodesChildless cs) :
    ∀ c ∈ cs, c.isFolder = false → c.children = [] := by
  cases h with | mk _ h1 _ => exact h1

theorem FileNodesChildless.childrenFNC {cs : List ChangeTreeItem} (h : FileNodesChildless cs)
    {c : ChangeTreeItem} (hc : c ∈ cs) : FileNodesChildless c.children := by
  cases h with | mk _ _ h2 => exact h2 c hc

theorem FileNodesChildless_nil : FileNodesChildless [] :=
  FileNodesChildless.mk [] (by simp) (by simp)

theorem FileNodesChildless_insertSegs (leaf : ChangeTreeItem) (hlc : leaf.children = []) :
    ∀ (dirs : List String) (cur : String) (forest : List ChangeTreeItem),
      FileNodesChildless forest → FileNodesChildless (insertSegs leaf cur dirs forest) := by
  intro dirs
  induction dirs with
  | nil =>
    intro cur forest hf
    simp only [insertSegs]
    constructor
    · intro c hc hcf
      rcases List.mem_append.mp hc with h1 | h2
      · exact hf.leafCond c h1 hcf
      · rw [List.eq_of_mem_singleton h2]; exact hlc
    · intro c hc
      rcases List.mem_append.mp hc with h1 | h2
      · exact hf.childrenFNC h1
      · rw [List.eq_of_mem_singleton h2, hlc]; exact FileNodesChildless_nil
  | cons d ds ih =>
    intro cur forest hf
    cases hfind : forest.find? (isFolderNamed d) with
    | none =>
      rw [insertSegs_cons_none hfind]
      constructor
      · intro c hc hcf
        rcases List.mem_append.mp hc with h1 | h2
        · exact hf.leafCond c h1 hcf
        · rw [List.eq_of_mem_singleton h2] at hcf
          simp [ChangeTreeItem.isFolder] at hcf
      · intro c hc
        rcases List.mem_append.mp hc with h1 | h2
        · exact hf.childrenFNC h1
        · rw [List.eq_of_mem_singleton h2]
          exact ih _ [] FileNodesChildless_nil
    | some c =>
      rw [insertSegs_cons_some hfind]
      obtain ⟨l1, l2, hdecomp, hl1, hrepl⟩ := find?_isFolderNamed_decomp hfind
      have hc : isFolderNamed d c = true := List.find?_some hfind
      obtain ⟨hcf, hcl⟩ := isFolderNamed_iff.mp hc
      have hcmem : c ∈ forest := List.mem_of_find?_eq_some hfind
      have hfc : FileNodesChildless c.children := hf.childrenFNC hcmem
      rw [hrepl]
      rw [hdecomp] at hf
      constructor
      · intro x hx hxf
        rcases List.mem_append.mp hx with h1 | h2
        · exact hf.leafCond x (by simp [h1]) hxf
        · rcases List.mem_cons.mp h2 with rfl | hxl2
          · rw [setChildren_isFolder] at hxf
            rw [hxf] at hcf
            simp at hcf
          · exact hf.leafCond x (by simp [hxl2]) hxf
      · intro x hx
        rcases List.mem_append.mp hx with h1 | h2
        · exact hf.childrenFNC (by simp [h1])
        · rcases List.mem_cons.mp h2 with rfl | hxl2
          · rw [setChildren_children]
            exact ih _ c.children hfc
          · exact hf.childrenFNC (by simp [hxl2])

/-! ## Lemmas: the record-processing fold of `buildTreeStructure` -/

theorem insertRecord_eq (roots : List ChangeTreeItem) (file : DiffFileInfo) :
    insertRecord roots file =
      insertSegs (fileLeafOf file) "" ((splitPath file.path).dropLast) roots := rfl

theorem address_eq (r : DiffFileInfo) :
    (splitPath r.path).dropLast ++ [(fileLeafOf r).label] = splitPath r.path := by
  rw [fileLeafOf_label]
  exact dropLast_append_getLastD _ "" (splitPath_ne_nil r.path)

theorem path_not_in_pre {pre rs2 : List DiffFileInfo} {rr : DiffFileInfo}
    (hnodup : ((pre ++ rr :: rs2).map DiffFileInfo.path).Nodup) :
    ∀ r ∈ pre, r.path ≠ rr.path := by
  intro r hr heq
  rw [List.map_append] at hnodup
  have h1 := List.disjoint_of_nodup_append hnodup
  apply h1 (a := rr.path)
  · rw [← heq]
    exact List.mem_map_of_mem _ hr
  · simp

theorem foldl_insertRecord_inv :
    ∀ (rs : List DiffFileInfo) (acc : List ChangeTreeItem) (pre : List DiffFileInfo),
      WFForest acc →
      (∀ r ∈ pre, filesAt acc (splitPath r.path) = [fileLeafOf r]) →
      (∀ A, (∀ r ∈ pre, splitPath r.path ≠ A) → filesAt acc A = []) →
      ((pre ++ rs).map DiffFileInfo.path).Nodup →
      WFForest (rs.foldl insertRecord acc) ∧
      (∀ r ∈ pre ++ rs, filesAt (rs.foldl insertRecord acc) (splitPath r.path) = [fileLeafOf r]) := by
  intro rs
  induction rs with
  | nil =>
    intro acc pre hwf hpre hempty hnodup
    exact ⟨hwf, by simpa using hpre⟩
  | cons rr rs2 ih =>
    intro acc pre hwf hpre hempty hnodup
    have hnotpre : ∀ r ∈ pre, r.path ≠ rr.path := path_not_in_pre hnodup
    have hwf2 : WFForest (insertRecord acc rr) := by
      rw [insertRecord_eq]
      exact WFForest_insertSegs _ (fileLeafOf_isFolder rr) (fileLeafOf_children rr) _ _ _ hwf
    have hself : filesAt (insertRecord acc rr) (splitPath rr.path) = [fileLeafOf rr] := by
      rw [insertRecord_eq,
        filesAt_insertSegs (fileLeafOf rr) (fileLeafOf_isFolder rr) _ _ _ _ hwf,
        if_pos (address_eq rr).symm,
        hempty (splitPath rr.path) (fun r hr hcontra => hnotpre r hr (splitPath_injective hcontra))]
      simp
    have hold : ∀ r ∈ pre, filesAt (insertRecord acc rr) (splitPath r.path) = [fileLeafOf r] := by
      intro r hr
      rw [insertRecord_eq,
        filesAt_insertSegs (fileLeafOf rr) (fileLeafOf_isFolder rr) _ _ _ _ hwf,
        if_neg (fun hcontra => hnotpre r hr
          (splitPath_injective (hcontra.trans (address_eq rr))))]
      exact hpre r hr
    have hempty2 : ∀ A, (∀ r ∈ pre ++ [rr], splitPath r.path ≠ A) →
        filesAt (insertRecord acc rr) A = [] := by
      intro A hA
      rw [insertRecord_eq,
        filesAt_insertSegs (fileLeafOf rr) (fileLeafOf_isFolder rr) _ _ _ _ hwf,
        if_neg (fun hcontra => hA rr (by simp) (by rw [hcontra, address_eq rr]))]
      exact hempty A (fun r hr => hA r (by simp [hr]))
    have hpre2 : ∀ r ∈ pre ++ [rr], filesAt (insertRecord acc rr) (splitPath r.path) =
        [fileLeafOf r] := by
      intro r hr
      rcases List.mem_append.mp hr with h1 | h2
      · exact hold r h1
      · rw [List.eq_of_mem_singleton h2]
        exact hself
    have hnodup2 : (((pre ++ [rr]) ++ rs2).map DiffFileInfo.path).Nodup := by
      simpa [List.append_assoc] using hnodup
    obtain ⟨hwf3, hall⟩ := ih (insertRecord acc rr) (pre ++ [rr]) hwf2 hpre2 hempty2 hnodup2
    constructor
    · simpa [List.foldl] using hwf3
    · intro r hr
      have : r ∈ (pre ++ [rr]) ++ rs2 := by simpa [List.append_assoc] using hr
      simpa [List.foldl] using hall r this

theorem allFilesList_foldl_perm :
    ∀ (rs : List DiffFileInfo) (acc : List ChangeTreeItem),
      (allFilesList (rs.foldl insertRecord acc)).Perm
        (rs.map fileLeafOf ++ allFilesList acc) := by
  intro rs
  induction rs with
  | nil => intro acc; simp
  | cons rr rs2 ih =>
    intro acc
    simp only [List.foldl, List.map_cons, List.cons_append]
    refine (ih (insertRecord acc rr)).trans ?_
    have h1 : (allFilesList (insertRecord acc rr)).Perm (fileLeafOf rr :: allFilesList acc) := by
      rw [insertRecord_eq]
      exact allFilesList_insertSegs_perm _ (fileLeafOf_isFolder rr) _ _ _
    refine (h1.append_left (rs2.map fileLeafOf)).trans ?_
    exact List.perm_middle

theorem filter_path_unique {l : List DiffFileInfo} {r : DiffFileInfo} (hr : r ∈ l)
    (hnodup : (l.map DiffFileInfo.path).Nodup) :
    l.filter (fun x => x.path == r.path) = [r] := by
  induction l with
  | nil => simp at hr
  | cons a t ih =>
    rw [List.map_cons] at hnodup
    obtain ⟨hna, hnt⟩ := List.nodup_cons.mp hnodup
    rcases List.mem_cons.mp hr with rfl | hrt
    · rw [List.filter_cons, if_pos (by simp)]
      have hall : ∀ x ∈ t, (x.path == r.path) = false := by
        intro x hx
        apply beq_eq_false_iff_ne.mpr
        intro heq
        apply hna
        rw [← heq]
        exact List.mem_map_of_mem _ hx
      rw [filter_eq_nil_of_all_false hall]
    · have hne : (a.path == r.path) = false := by
        apply beq_eq_false_iff_ne.mpr
        intro heq
        apply hna
        rw [heq]
        exact List.mem_map_of_mem _ hrt
      rw [List.filter_cons, if_neg (by simp [hne])]
      exact ih hrt hnt

theorem buildTreeStructure_eq_foldl (ctx : CompareContext) (files : List DiffFileInfo)
    (h : files ≠ []) :
    buildTreeStructure (some ctx) files = (sortByPath files).foldl insertRecord [] := by
  simp only [buildTreeStructure]
  rw [if_neg (fun hh => h (List.length_eq_zero.mp hh))]

theorem foldl_insertRecord_preserves {P : List ChangeTreeItem → Prop}
    (hstep : ∀ acc r, P acc → P (insertRecord acc r)) :
    ∀ (rs : List DiffFileInfo) (acc : List ChangeTreeItem), P acc → P (rs.foldl insertRecord acc) := by
  intro rs
  induction rs with
  | nil => intro acc h; simpa using h
  | cons rr rs2 ih =>
    intro acc h
    simpa [List.foldl] using ih (insertRecord acc rr) (hstep acc rr h)

theorem WFForest_build (ctx : Option CompareContext) (files : List DiffFileInfo) :
    WFForest (buildTreeStructure ctx files) := by
  cases ctx with
  | none => exact WFForest_nil
  | some c =>
    simp only [buildTreeStructure]
    split
    · exact WFForest_nil
    · exact foldl_insertRecord_preserves
        (fun acc r h => by
          rw [insertRecord_eq]
          exact WFForest_insertSegs _ (fileLeafOf_isFolder r) (fileLeafOf_children r) _ _ _ h)
        _ _ WFForest_nil

theorem FileNodesChildless_build (ctx : Option CompareContext) (files : List DiffFileInfo) :
    FileNodesChildless (buildTreeStructure ctx files) := by
  cases ctx with
  | none => exact FileNodesChildless_nil
  | some c =>
    simp only [buildTreeStructure]
    split
    · exact FileNodesChildless_nil
    · exact foldl_insertRecord_preserves
        (fun acc r h => by
          rw [insertRecord_eq]
          exact FileNodesChildless_insertSegs _ (fileLeafOf_children r) _ _ _ h)
        _ _ FileNodesChildless_nil

theorem countFilesList_foldl :
    ∀ (rs : List DiffFileInfo) (acc : List ChangeTreeItem),
      countFilesList (rs.foldl insertRecord acc) = countFilesList acc + rs.length := by
  intro rs
  induction rs with
  | nil => intro acc; simp
  | cons rr rs2 ih =>
    intro acc
    have hstep : countFilesList (insertRecord acc rr) = countFilesList acc + 1 := by
      rw [insertRecord_eq]
      exact countFilesList_insertSegs _ (fileLeafOf_isFolder rr) _ _ _
    simp only [List.foldl, List.length_cons]
    rw [ih (insertRecord acc rr), hstep]
    omega

/-! ## Lemmas: aggregate counts against the subtree specification -/

theorem FileNodesChildless.tail {c : ChangeTreeItem} {cs2 : List ChangeTreeItem}
    (h : FileNodesChildless (c :: cs2)) : FileNodesChildless cs2 := by
  constructor
  · intro x hx hxf
    exact h.leafCond x (by simp [hx]) hxf
  · intro x hx
    exact h.childrenFNC (by simp [hx])

theorem countFilesList_spec :
    ∀ (cs : List ChangeTreeItem), FileNodesChildless cs →
      countFilesList cs = ((subtreeNodesList cs).filter (fun c => !c.isFolder)).length
  | [], _ => by simp [countFilesList, subtreeNodesList]
  | c :: cs2, h => by
    have h2 := h.tail
    have hc : FileNodesChildless c.children := h.childrenFNC (by simp)
    have hrec2 := countFilesList_spec cs2 h2
    simp only [countFilesList, subtreeNodesList, List.filter_append, List.length_append]
    rw [← hrec2]
    cases c with
    | mk l f i p ccs =>
      cases f with
      | true =>
        have hccs : FileNodesChildless ccs := hc
        have hrec1 := countFilesList_spec ccs hccs
        simp only [ChangeTreeItem.isFolder, if_true, subtreeNodes, List.filter_cons]
        rw [if_neg (by simp [ChangeTreeItem.isFolder])]
        rw [countFiles_eq_children]
        simp only [ChangeTreeItem.children]
        rw [hrec1]
        rfl
      | false =>
        have hempty : ccs = [] :=
          h.leafCond (ChangeTreeItem.mk l false i p ccs) (by simp) (by simp [ChangeTreeItem.isFolder])
        subst hempty
        simp [ChangeTreeItem.isFolder, subtreeNodes, subtreeNodesList, List.filter_cons]

theorem FNC_of_mem_subtree :
    ∀ (cs : List ChangeTreeItem), FileNodesChildless cs →
      ∀ {t : ChangeTreeItem}, t ∈ subtreeNodesList cs → FileNodesChildless t.children
  | [], _, t, ht => by simp [subtreeNodesList] at ht
  | c :: cs2, h, t, ht => by
    simp only [subtreeNodesList] at ht
    rcases List.mem_append.mp ht with h1 | h2
    · cases c with
      | mk l f i p ccs =>
        have hccs : FileNodesChildless ccs := h.childrenFNC (c := .mk l f i p ccs) (by simp)
        simp only [subtreeNodes] at h1
        rcases List.mem_cons.mp h1 with rfl | h3
        · exact hccs
        · exact FNC_of_mem_subtree ccs hccs h3
    · exact FNC_of_mem_subtree cs2 h.tail h2

/-! ## The claims -/

/-- C1 (counterexample): the claim quantifies over every non-empty record
collection, but for the collection with the duplicated path `"notes.txt"`
the built tree carries two file-type leaves reachable by walking that path's
segments, not exactly one. -/
theorem claim1_counterexample :
    (filesAt (buildTreeStructure (some exampleContext) duplicatedRecords)
      (splitPath "notes.txt")).length = 2 ∧
    ¬ (filesAt (buildTreeStructure (some exampleContext) duplicatedRecords)
      (splitPath "notes.txt")).length = 1 := by
  constructor <;> decide

/-- C1 (amended): for every non-empty collection of records with pairwise
distinct paths, each record's path appears as exactly one file-type leaf in
the built tree — globally, the tree's file leaves carrying that path are
exactly the record's leaf — and that leaf is reached from the root list by
walking the path's slash-separated segments in order (intermediate segments
through directory nodes, the final segment naming the file leaf). -/
theorem claim1_distinct_paths (ctx : CompareContext) (files : List DiffFileInfo)
    (hnodup : (files.map DiffFileInfo.path).Nodup) (hne : files ≠ [])
    (r : DiffFileInfo) (hr : r ∈ files) :
    filesAt (buildTreeStructure (some ctx) files) (splitPath r.path) = [fileLeafOf r] ∧
    (allFilesList (buildTreeStructure (some ctx) files)).filter
      (fun c => c.fullPath == r.path) = [fileLeafOf r] := by
  have hsortnodup : ((sortByPath files).map DiffFileInfo.path).Nodup :=
    (((sortByPath_perm files).map DiffFileInfo.path).nodup_iff).mpr hnodup
  have hrs : r ∈ sortByPath files := (sortByPath_perm files).mem_iff.mpr hr
  rw [buildTreeStructure_eq_foldl ctx files hne]
  constructor
  · obtain ⟨_, hall⟩ := foldl_insertRecord_inv (sortByPath files) [] [] WFForest_nil
      (by simp) (fun A _ => filesAt_nil A) (by simpa using hsortnodup)
    exact hall r (by simpa using hrs)
  · have hperm := allFilesList_foldl_perm (sortByPath files) []
    have hperm2 : (allFilesList ((sortByPath files).foldl insertRecord [])).Perm
        ((sortByPath files).map fileLeafOf) := by
      simpa [allFilesList] using hperm
    have hfperm := hperm2.filter (fun c => c.fullPath == r.path)
    have hfilter_map : ((sortByPath files).map fileLeafOf).filter
        (fun c => c.fullPath == r.path)
        = ((sortByPath files).filter (fun x => x.path == r.path)).map fileLeafOf := by
      rw [List.filter_map]
      rfl
    rw [hfilter_map, filter_path_unique hrs hsortnodup] at hfperm
    exact List.perm_singleton.mp (by simpa using hfperm)

/-- C1 witness: the amended claim evaluated on the three-record nested
example, at the record `a/b/x.txt`. -/
theorem claim1_distinct_paths_witness :
    (exampleNestedRecords.map DiffFileInfo.path).Nodup ∧
    (filesAt (buildTreeStructure (some exampleContext) exampleNestedRecords)
      (splitPath "a/b/x.txt") = [fileLeafOf { status := "M", path := "a/b/x.txt" }] ∧
    (allFilesList (buildTreeStructure (some exampleContext) exampleNestedRecords)).filter
      (fun c => c.fullPath == "a/b/x.txt") = [fileLeafOf { status := "M", path := "a/b/x.txt" }]) :=
  ⟨by decide,
    claim1_distinct_paths exampleContext exampleNestedRecords (by decide) (by decide)
      { status := "M", path := "a/b/x.txt" } (by decide)⟩

theorem head_mem_subtreeNodesList (c : ChangeTreeItem) (cs : List ChangeTreeItem) :
    c ∈ subtreeNodesList (c :: cs) := by
  cases c with
  | mk l f i p ccs =>
    simp [subtreeNodesList, subtreeNodes]

/-- C2: in every built tree, every directory node's aggregate file count —
`countFiles`, the number rendered in the folder's description — equals the
number of file-type nodes anywhere in its subtree, not merely its direct
file children. -/
theorem claim2_aggregate_counts (ctx : Option CompareContext) (files : List DiffFileInfo)
    (t : ChangeTreeItem) (ht : t ∈ subtreeNodesList (buildTreeStructure ctx files))
    (hfolder : t.isFolder = true) :
    countFiles t = ((subtreeNodes t).filter (fun c => !c.isFolder)).length ∧
    folderDescription t =
      toString ((subtreeNodes t).filter (fun c => !c.isFolder)).length ++ " file" ++
        (if ((subtreeNodes t).filter (fun c => !c.isFolder)).length == 1 then "" else "s") := by
  have hfnc : FileNodesChildless t.children :=
    FNC_of_mem_subtree _ (FileNodesChildless_build ctx files) ht
  have hmain : countFiles t = ((subtreeNodes t).filter (fun c => !c.isFolder)).length := by
    rw [countFiles_eq_children, countFilesList_spec t.children hfnc]
    cases t with
    | mk l f i p cs =>
      simp only [ChangeTreeItem.isFolder] at hfolder
      subst hfolder
      simp only [subtreeNodes, List.filter_cons, ChangeTreeItem.children]
      rw [if_neg (by simp [ChangeTreeItem.isFolder])]
  refine ⟨hmain, ?_⟩
  simp only [folderDescription]
  rw [hmain]

/-- C2 witness: on the records `{a/b/x.txt, a/b/y.txt, a/c.txt}` the root
directory `a` satisfies the claim with aggregate count 3, and its child
directory `b` has aggregate count 2. -/
theorem claim2_aggregate_counts_witness :
    (countFiles exampleFolderA =
        ((subtreeNodes exampleFolderA).filter (fun c => !c.isFolder)).length ∧
      folderDescription exampleFolderA =
        toString ((subtreeNodes exampleFolderA).filter (fun c => !c.isFolder)).length
          ++ " file" ++
          (if ((subtreeNodes exampleFolderA).filter (fun c => !c.isFolder)).length == 1
            then "" else "s")) ∧
    countFiles exampleFolderA = 3 ∧ countFiles exampleFolderB = 2 ∧
    folderDescription exampleFolderA = "3 files" :=
  ⟨claim2_aggregate_counts (some exampleContext) exampleNestedRecords exampleFolderA
      (by rw [show buildTreeStructure (some exampleContext) exampleNestedRecords =
          [exampleFolderA] from rfl]
          exact head_mem_subtreeNodesList _ _)
      (by rfl),
    by decide, by decide, by decide⟩

/-- C3 (counterexample): the claim quantifies over every comparison context,
but in single-file mode a failing fetch does not produce an empty tree —
the synthetic fallback record yields a one-element record list, one root
item, and a non-empty `getChildren` root answer. -/
theorem claim3_counterexample :
    (ChangesTreeProvider.setCompareContext failingGit singleFileContext
      ProviderState.initial).changedFiles.length = 1 ∧
    (ChangesTreeProvider.setCompareContext failingGit singleFileContext
      ProviderState.initial).rootItems.length = 1 ∧
    (ChangesTreeProvider.getChildren (ChangesTreeProvider.setCompareContext failingGit
      singleFileContext ProviderState.initial) none).1.length = 1 := by
  refine ⟨?_, ?_, ?_⟩ <;> decide

/-- C3 (amended): for every directory-mode comparison context, if the
external fetch fails (the process call is rejected) or yields no records,
`setCompareContext` proceeds with an empty record set and produces an empty
tree: `getChildren` with no argument returns an empty root list.  No
exception escapes the provider: the catch inside `getDirectoryDiff` turns
the failure into the empty record list, and every operation here is total. -/
theorem claim3_directory_mode (git : String → String → String → Except String String)
    (context : CompareContext) (s : ProviderState)
    (hdir : context.isDirectory = true)
    (hfail : (∃ msg, git context.basePath context.ref context.repoRoot = Except.error msg) ∨
      getDirectoryDiff (git context.basePath context.ref context.repoRoot) = []) :
    (ChangesTreeProvider.setCompareContext git context s).changedFiles = [] ∧
    (ChangesTreeProvider.setCompareContext git context s).rootItems = [] ∧
    (ChangesTreeProvider.getChildren
      (ChangesTreeProvider.setCompareContext git context s) none).1 = [] := by
  have hempty : getDirectoryDiff (git context.basePath context.ref context.repoRoot) = [] := by
    rcases hfail with ⟨msg, hmsg⟩ | h
    · simp [getDirectoryDiff, hmsg]
    · exact h
  have hcf : (ChangesTreeProvider.setCompareContext git context s).changedFiles = [] := by
    simp [ChangesTreeProvider.setCompareContext, hdir, hempty]
  have hri : (ChangesTreeProvider.setCompareContext git context s).rootItems = [] := by
    simp [ChangesTreeProvider.setCompareContext, hdir, hempty, buildTreeStructure]
  refine ⟨hcf, hri, ?_⟩
  have hctx : (ChangesTreeProvider.setCompareContext git context s).compareContext =
      some context := by
    simp [ChangesTreeProvider.setCompareContext]
  simp [ChangesTreeProvider.getChildren, hctx, hri]

/-- C3 witness: the amended claim evaluated on a directory-mode context with
a failing fetch. -/
theorem claim3_directory_mode_witness :
    exampleContext.isDirectory = true ∧
    ((ChangesTreeProvider.setCompareContext failingGit exampleContext
      ProviderState.initial).changedFiles = [] ∧
    (ChangesTreeProvider.setCompareContext failingGit exampleContext
      ProviderState.initial).rootItems = [] ∧
    (ChangesTreeProvider.getChildren (ChangesTreeProvider.setCompareContext failingGit
      exampleContext ProviderState.initial) none).1 = []) :=
  ⟨rfl, claim3_directory_mode failingGit exampleContext ProviderState.initial rfl
    (Or.inl ⟨"fatal: not a git repository", rfl⟩)⟩

/-- C4 (counterexample): the claim asserts collision-free sibling names for
every input, including duplicated paths; with the duplicated path `"x.txt"`
the root list carries two sibling file nodes with the same name. -/
theorem claim4_counterexample :
    noSiblingCollisions (buildTreeStructure (some exampleContext) collidingRecords) = false ∧
    (buildTreeStructure (some exampleContext) collidingRecords).map ChangeTreeItem.label
      = ["x.txt", "x.txt"] := by
  constructor <;> decide

/-- C4 (amended): in every built tree, at most one folder-type child per
distinct name exists under any directory node and within the root list
(`WFForest`); file-type siblings may share a name when input paths collide. -/
theorem claim4_folder_names_unique (ctx : Option CompareContext) (files : List DiffFileInfo) :
    WFForest (buildTreeStructure ctx files) :=
  WFForest_build ctx files

/-- C5: the builder processes records in the order obtained by sorting their
paths with the (modeled) locale-aware comparator: the processing order is a
permutation of the input sorted by that comparator, the built tree is
exactly the tree built from the sorted list, and on the specification's
example `{dir/a.txt, dir/sub/b.txt, top.txt}` the root list is
`[dir, top.txt]`, `dir` first. -/
theorem claim5_sorted_processing (ctx : Option CompareContext) (files : List DiffFileInfo) :
    (sortByPath files).Perm files ∧
    (sortByPath files).Pairwise (fun a b => localeCompareLe a.path b.path = true) ∧
    buildTreeStructure ctx (sortByPath files) = buildTreeStructure ctx files ∧
    (buildTreeStructure (some exampleContext) exampleRecordsC5).map ChangeTreeItem.label
      = ["dir", "top.txt"] := by
  refine ⟨sortByPath_perm files, sortByPath_pairwise files, ?_, by decide⟩
  cases ctx with
  | none => rfl
  | some c =>
    simp only [buildTreeStructure]
    by_cases h : files.length = 0
    · have hnil : files = [] := List.length_eq_zero.mp h
      subst hnil
      simp [sortByPath]
    · rw [if_neg (fun hh => h (by rw [← sortByPath_length]; exact hh)), if_neg h,
        sortByPath_idem]

/-- C6: calling `refresh` twice in succession against the same external data
(the same oracle) leaves exactly the state one `refresh` produces — the two
built trees are structurally identical: same node names, statuses and
aggregate counts at every position (the rebuild is deterministic in the
fetched records and held context). -/
theorem claim6_refresh_idempotent (git : String → String → String → Except String String)
    (s : ProviderState) :
    ChangesTreeProvider.refresh git (ChangesTreeProvider.refresh git s) =
      ChangesTreeProvider.refresh git s := by
  cases hc : s.compareContext with
  | none => simp [ChangesTreeProvider.refresh, hc]
  | some c =>
    simp only [ChangesTreeProvider.refresh, hc]
    rfl

/-- C7: in single-file mode, when no fetched record's path matches the
target file's repository-relative path, `setCompareContext` substitutes the
synthetic record with status `"M"` (Modified), that relative path, and no
old path, so the record list used to build the tree is the non-empty
singleton of that record. -/
theorem claim7_single_file_fallback (git : String → String → String → Except String String)
    (context : CompareContext) (s : ProviderState)
    (hfile : context.isDirectory = false)
    (hnomatch : ∀ f ∈ getDirectoryDiff (git (pathDirname context.basePath) context.ref
        context.repoRoot),
      f.path ≠ backslashToSlash (pathRelative context.repoRoot context.basePath)) :
    (ChangesTreeProvider.setCompareContext git context s).changedFiles =
      [{ status := "M",
         path := backslashToSlash (pathRelative context.repoRoot context.basePath),
         oldPath := none }] := by
  have hfind : (getDirectoryDiff (git (pathDirname context.basePath) context.ref
      context.repoRoot)).find? (fun f => f.path ==
        backslashToSlash (pathRelative context.repoRoot context.basePath)) = none := by
    apply List.find?_eq_none.mpr
    intro x hx hcontra
    exact hnomatch x hx (by simpa using hcontra)
  simp [ChangesTreeProvider.setCompareContext, hfile, hfind]

/-- C7 witness: the fallback evaluated on the single-file context
`/repo/a.txt` with a failing fetch, whose relative path is `a.txt`. -/
theorem claim7_single_file_fallback_witness :
    singleFileContext.isDirectory = false ∧
    (ChangesTreeProvider.setCompareContext failingGit singleFileContext
      ProviderState.initial).changedFiles =
      [{ status := "M", path := "a.txt", oldPath := none }] := by
  refine ⟨rfl, ?_⟩
  have h := claim7_single_file_fallback failingGit singleFileContext ProviderState.initial rfl
    (by intro f hf; simp [getDirectoryDiff, failingGit] at hf)
  exact h

theorem parseLine_oldPath_iff {line : String} {r : DiffFileInfo}
    (h : parseLine line = some r) :
    (r.oldPath.isSome = true ↔ (r.status = "R" ∨ r.status = "C")) := by
  simp only [parseLine] at h
  split at h
  · rename_i hrc
    split at h
    · rename_i p heq
      split at h
      · exact absurd h (by simp)
      · rename_i hpe
        injection h with h2
        subst h2
        simp only [Bool.or_eq_true, beq_iff_eq] at hrc
        constructor
        · intro _
          exact hrc
        · intro _
          have hlen : 2 < (splitStr '\t' line).length := by
            by_contra hc
            rw [List.get?_eq_none.mpr (by omega)] at heq
            exact Option.noConfusion heq
          have hne : (splitStr '\t' line).get? 1 ≠ none := by
            intro hn
            have := List.get?_eq_none.mp hn
            omega
          exact Option.ne_none_iff_isSome.mp hne
    · exact absurd h (by simp)
  · rename_i hrc
    split at h
    · rename_i p heq
      split at h
      · exact absurd h (by simp)
      · injection h with h2
        subst h2
        simp only [Bool.or_eq_true, beq_iff_eq] at hrc
        push_neg at hrc
        constructor
        · intro habs
          simp at habs
        · intro habs
          rcases habs with h1 | h1
          · exact absurd h1 hrc.1
          · exact absurd h1 hrc.2
    · exact absurd h (by simp)

theorem parseLine_rc_fields {line : String} {r : DiffFileInfo}
    (h : parseLine line = some r) (hrc : r.status = "R" ∨ r.status = "C") :
    (splitStr '\t' line).get? 1 = r.oldPath ∧ (splitStr '\t' line).get? 2 = some r.path := by
  simp only [parseLine] at h
  split at h
  · split at h
    · rename_i p heq
      split at h
      · exact absurd h (by simp)
      · injection h with h2
        subst h2
        exact ⟨rfl, heq⟩
    · exact absurd h (by simp)
  · rename_i hrc2
    split at h
    · rename_i p heq
      split at h
      · exact absurd h (by simp)
      · injection h with h2
        subst h2
        simp only [Bool.or_eq_true, beq_iff_eq] at hrc2
        push_neg at hrc2
        rcases hrc with h1 | h1
        · exact absurd h1 hrc2.1
        · exact absurd h1 hrc2.2
    · exact absurd h (by simp)

/-- C8: over every parsed name-status output, a record carries an `oldPath`
exactly when its status is `"R"` (Renamed) or `"C"` (Copied); and for every
`R`/`C` line that parses, the line's second tab-separated field is preserved
as `oldPath` and its third field as `path`, while records with any other
status carry no `oldPath`. -/
theorem claim8_oldPath_parsing :
    (∀ (execResult : Except String String) (r : DiffFileInfo),
      r ∈ getDirectoryDiff execResult →
        (r.oldPath.isSome = true ↔ (r.status = "R" ∨ r.status = "C"))) ∧
    (∀ (line : String) (r : DiffFileInfo), parseLine line = some r →
      (r.status = "R" ∨ r.status = "C") →
      (splitStr '\t' line).get? 1 = r.oldPath ∧ (splitStr '\t' line).get? 2 = some r.path) := by
  constructor
  · intro execResult r hr
    cases execResult with
    | error e => simp [getDirectoryDiff] at hr
    | ok stdout =>
      simp only [getDirectoryDiff] at hr
      by_cases htrim : (trimStr stdout == "") = true
      · rw [if_pos htrim] at hr
        simp at hr
      · rw [if_neg htrim] at hr
        simp only [parseNameStatus] at hr
        obtain ⟨line, _, hline⟩ := List.mem_filterMap.mp hr
        exact parseLine_oldPath_iff hline
  · intro line r h hrc
    exact parseLine_rc_fields h hrc

/-- C8 witness: the claim evaluated on the concrete two-line output
`R100 old.txt new.txt` / `M mod.txt`, at the renamed record and at the
rename line itself. -/
theorem claim8_oldPath_parsing_witness :
    ({ status := "R", path := "new.txt", oldPath := some "old.txt" } : DiffFileInfo) ∈
      getDirectoryDiff (Except.ok "R100\told.txt\tnew.txt\nM\tmod.txt") ∧
    (({ status := "R", path := "new.txt", oldPath := some "old.txt" } :
        DiffFileInfo).oldPath.isSome = true ↔
      (({ status := "R", path := "new.txt", oldPath := some "old.txt" } :
        DiffFileInfo).status = "R" ∨
       ({ status := "R", path := "new.txt", oldPath := some "old.txt" } :
        DiffFileInfo).status = "C")) ∧
    ((splitStr '\t' "R100\told.txt\tnew.txt").get? 1 =
        ({ status := "R", path := "new.txt", oldPath := some "old.txt" } :
          DiffFileInfo).oldPath ∧
      (splitStr '\t' "R100\told.txt\tnew.txt").get? 2 =
        some ({ status := "R", path := "new.txt", oldPath := some "old.txt" } :
          DiffFileInfo).path) :=
  ⟨by decide,
    claim8_oldPath_parsing.1 (Except.ok "R100\told.txt\tnew.txt\nM\tmod.txt")
      { status := "R", path := "new.txt", oldPath := some "old.txt" } (by decide),
    claim8_oldPath_parsing.2 "R100\told.txt\tnew.txt"
      { status := "R", path := "new.txt", oldPath := some "old.txt" } (by decide)
      (Or.inl (by decide))⟩

/-- C9: the pull queries never modify the provider's state — after any
`getChildren` call (with or without an element), any `getParent` call, and
any sequence of such queries, the held comparison context, record list and
built tree are exactly as before.  Only `setCompareContext`, `clear` and
`refresh` produce a different state. -/
theorem claim9_queries_pure (s : ProviderState) :
    (∀ element, (ChangesTreeProvider.getChildren s element).2 = s) ∧
    (∀ element, (ChangesTreeProvider.getParent s element).2 = s) ∧
    (∀ qs : List ProviderQuery, qs.foldl runQuery s = s) := by
  have hchildren : ∀ element, (ChangesTreeProvider.getChildren s element).2 = s := by
    intro element
    simp only [ChangesTreeProvider.getChildren]
    cases s.compareContext <;> cases element <;> rfl
  have hparent : ∀ element, (ChangesTreeProvider.getParent s element).2 = s := fun _ => rfl
  refine ⟨hchildren, hparent, ?_⟩
  intro qs
  induction qs with
  | nil => rfl
  | cons q qs2 ih =>
    have hq : runQuery s q = s := by
      cases q with
      | childrenOf e => exact hchildren e
      | parentOf e => exact hparent e
    simp only [List.foldl, hq]
    exact ih

theorem countFilesList_build_singleton (ctx : CompareContext) (r : DiffFileInfo) :
    countFilesList (buildTreeStructure (some ctx) [r]) = 1 := by
  rw [buildTreeStructure_eq_foldl ctx [r] (by simp), countFilesList_foldl]
  simp [countFilesList, sortByPath_length]

/-- C10: in single-file mode `setCompareContext` always stores a record list
of length exactly one — the fetched record matching the file's relative path
when one exists, otherwise the synthetic Modified record — and the built
tree therefore contains exactly one file-type leaf, even when the external
fetch fails or returns nothing. -/
theorem claim10_single_file_one_leaf (git : String → String → String → Except String String)
    (context : CompareContext) (s : ProviderState)
    (hfile : context.isDirectory = false) :
    ∃ r, (ChangesTreeProvider.setCompareContext git context s).changedFiles = [r] ∧
      ((getDirectoryDiff (git (pathDirname context.basePath) context.ref
          context.repoRoot)).find? (fun f => f.path ==
            backslashToSlash (pathRelative context.repoRoot context.basePath)) = some r ∨
        ((getDirectoryDiff (git (pathDirname context.basePath) context.ref
          context.repoRoot)).find? (fun f => f.path ==
            backslashToSlash (pathRelative context.repoRoot context.basePath)) = none ∧
          r = { status := "M",
                path := backslashToSlash (pathRelative context.repoRoot context.basePath),
                oldPath := none })) ∧
      countFilesList (ChangesTreeProvider.setCompareContext git context s).rootItems = 1 := by
  cases hfind : (getDirectoryDiff (git (pathDirname context.basePath) context.ref
      context.repoRoot)).find? (fun f => f.path ==
        backslashToSlash (pathRelative context.repoRoot context.basePath)) with
  | none =>
    refine ⟨{ status := "M",
              path := backslashToSlash (pathRelative context.repoRoot context.basePath),
              oldPath := none }, ?_, Or.inr ⟨rfl, rfl⟩, ?_⟩
    · simp [ChangesTreeProvider.setCompareContext, hfile, hfind]
    · have hcf : (ChangesTreeProvider.setCompareContext git context s).changedFiles =
          [{ status := "M",
             path := backslashToSlash (pathRelative context.repoRoot context.basePath),
             oldPath := none }] := by
        simp [ChangesTreeProvider.setCompareContext, hfile, hfind]
      have hri : (ChangesTreeProvider.setCompareContext git context s).rootItems =
          buildTreeStructure (some context)
            (ChangesTreeProvider.setCompareContext git context s).changedFiles := by
        simp [ChangesTreeProvider.setCompareContext]
      rw [hri, hcf, countFilesList_build_singleton]
  | some m =>
    refine ⟨m, ?_, Or.inl rfl, ?_⟩
    · simp [ChangesTreeProvider.setCompareContext, hfile, hfind]
    · have hcf : (ChangesTreeProvider.setCompareContext git context s).changedFiles = [m] := by
        simp [ChangesTreeProvider.setCompareContext, hfile, hfind]
      have hri : (ChangesTreeProvider.setCompareContext git context s).rootItems =
          buildTreeStructure (some context)
            (ChangesTreeProvider.setCompareContext git context s).changedFiles := by
        simp [ChangesTreeProvider.setCompareContext]
      rw [hri, hcf, countFilesList_build_singleton]

/-- C10 witness: the claim evaluated on the single-file context
`/repo/a.txt` with a failing fetch. -/
theorem claim10_single_file_one_leaf_witness :
    singleFileContext.isDirectory = false ∧
    (∃ r, (ChangesTreeProvider.setCompareContext failingGit singleFileContext
        ProviderState.initial).changedFiles = [r] ∧
      ((getDirectoryDiff (failingGit (pathDirname singleFileContext.basePath)
          singleFileContext.ref singleFileContext.repoRoot)).find? (fun f => f.path ==
            backslashToSlash (pathRelative singleFileContext.repoRoot
              singleFileContext.basePath)) = some r ∨
        ((getDirectoryDiff (failingGit (pathDirname singleFileContext.basePath)
          singleFileContext.ref singleFileContext.repoRoot)).find? (fun f => f.path ==
            backslashToSlash (pathRelative singleFileContext.repoRoot
              singleFileContext.basePath)) = none ∧
          r = { status := "M",
                path := backslashToSlash (pathRelative singleFileContext.repoRoot
                  singleFileContext.basePath),
                oldPath := none })) ∧
      countFilesList (ChangesTreeProvider.setCompareContext failingGit singleFileContext
        ProviderState.initial).rootItems = 1) :=
  ⟨rfl, claim10_single_file_one_leaf failingGit singleFileContext ProviderState.initial rfl⟩
